import Mathlib

/-!
Verification of the transactional in-memory table layer
(`src/libstorage/MemoryTable.h` of FISCO-BCOS): cache, change journal,
condition evaluator, authority/field gates and the hash-field filter.

The C++ class `MemoryTable` is shallowly embedded: the mutable cache
becomes explicit state passing, shared-pointer mutation of a cached
`Entries` becomes a write-back into the cache slot it aliases, and a
C++ exception becomes the error branch of `Except` carrying the state
at the throw point.  Since the embedding is sequential, the
double-checked tombstone-reload branch always re-reads the same slot.
-/

set_option maxHeartbeats 1000000

/-- Modelled from the spec: the row type `Entry` of `Table.h` (not under
`src/`).  An insertion-ordered map from field name to value, a numeric
status (`Live` = 0, `Deleted` = 1) and a dirty flag.  `set_field` and
`set_status` set the dirty flag. -/
structure Entry where
  fields : List (String × String)
  status : Nat
  dirty  : Bool
deriving DecidableEq, Repr

instance : Inhabited Entry := ⟨⟨[], 0, false⟩⟩

/-- First-occurrence lookup in an insertion-ordered field list. -/
def lookupField : List (String × String) → String → Option String
  | [], _ => none
  | (m, w) :: t, n => if m = n then some w else lookupField t n

/-- Modelled from the spec: `Entry::getField` returns the value of the
first matching field, or `""` when the field is absent. -/
def Entry.getField (e : Entry) (n : String) : String :=
  (lookupField e.fields n).getD ""

/-- Modelled from the spec: write-through on the first occurrence of the
field name, appending the field when absent. -/
def setFields : List (String × String) → String → String → List (String × String)
  | [], n, v => [(n, v)]
  | (m, w) :: rest, n, v =>
      if m = n then (m, v) :: rest else (m, w) :: setFields rest n v

/-- Modelled from the spec: `Entry::setField` writes the field and marks
the entry dirty. -/
def Entry.setField (e : Entry) (n v : String) : Entry :=
  { fields := setFields e.fields n v, status := e.status, dirty := true }

/-- Modelled from the spec: `Entry::setStatus` writes the status and marks
the entry dirty. -/
def Entry.setStatus (e : Entry) (s : Nat) : Entry :=
  { fields := e.fields, status := s, dirty := true }

def Entry.getStatus (e : Entry) : Nat := e.status

/-- `Entry::Status::DELETED`. -/
def DELETED : Nat := 1

/-- Modelled from the spec: `Entries` of `Table.h` (not under `src/`): an
ordered append-only bag of entries plus a dirty flag. -/
structure Entries where
  entries : List Entry
  dirty   : Bool
deriving DecidableEq, Repr

def Entries.size (es : Entries) : Nat := es.entries.length

/-- Modelled from the spec: `Entries::addEntry` appends and sets the bag's
dirty flag. -/
def Entries.addEntry (es : Entries) (e : Entry) : Entries :=
  ⟨es.entries ++ [e], true⟩

/-- Modelled from the spec: `Entries::removeEntry` removes the entry at the
given position (used only by rollback of an `Insert`). -/
def Entries.removeEntry (es : Entries) (i : Nat) : Entries :=
  { entries := es.entries.eraseIdx i, dirty := es.dirty }

def Entries.setDirty (es : Entries) (b : Bool) : Entries :=
  { entries := es.entries, dirty := b }

/-- The comparison operators of `Condition::Op`. -/
inductive CondOp
  | eq | ne | gt | ge | lt | le
deriving DecidableEq, Repr

/-- Modelled from the spec: a `Condition` is the conjunctive sequence of
`(field, (op, rhs))` tuples returned by `Condition::getConditions`. -/
abbrev Condition := List (String × CondOp × String)

/-- `Change::Record {index, key, oldValue}`; `key`/`oldValue` default to
`""` for insert and remove records. -/
structure ChangeRecord where
  index    : Nat
  key      : String
  oldValue : String
deriving DecidableEq, Repr

inductive ChangeKind
  | Insert | Update | Remove | Select
deriving DecidableEq, Repr

/-- A journal entry `Change {kind, key, value}`. -/
structure Change where
  kind  : ChangeKind
  key   : String
  value : List ChangeRecord
deriving DecidableEq, Repr

/-- Modelled from the spec: `TableInfo` (schema name, permitted fields,
authorized addresses). -/
structure TableInfo where
  name              : String
  fields            : List String
  authorizedAddress : List String
deriving DecidableEq, Repr

/-- Modelled from the spec: `AccessOptions {origin, check}`. -/
structure AccessOptions where
  origin : String
  check  : Bool
deriving DecidableEq, Repr

/-- The cache `m_cache`: a finite map from key to `Entries::Ptr`, `none`
in the range modelling the `nullptr` tombstone.  First-occurrence
association-list semantics model the unique-key C++ map. -/
abbrev Cache := List (String × Option Entries)

def Cache.find? : Cache → String → Option (Option Entries)
  | [], _ => none
  | (k', v) :: rest, k => if k' = k then some v else Cache.find? rest k

/-- `m_cache.insert(make_pair(key, v))`: the first inserter wins, a later
insert on a present key is dropped. -/
def Cache.insertKeep (c : Cache) (k : String) (v : Option Entries) : Cache :=
  match c.find? k with
  | some _ => c
  | none => c ++ [(k, v)]

/-- `m_cache[key] = v`: overwrite the slot, creating it when absent. -/
def Cache.setKey : Cache → String → Option Entries → Cache
  | [], k, v => [(k, v)]
  | (k', v') :: rest, k, v =>
      if k' = k then (k', v) :: rest else (k', v') :: Cache.setKey rest k v

/-- `storage::CODE_NO_AUTHORIZED`, the negative sentinel returned on a
failed authority check. -/
def CODE_NO_AUTHORIZED : Int := -1

/-- The whole table state: cache, optional backing store (`m_remoteDB`,
modelled as a key-indexed fallible query at the fixed block view),
schema (`m_tableInfo`) and whether a recorder callback is bound. -/
structure TableState where
  cache    : Cache
  remote   : Option (String → Except Unit (Option Entries))
  info     : TableInfo
  recorder : Bool

/-- `boost::lexical_cast<int>`: an optional sign followed by one or more
decimal digits, consuming the whole string, within 32-bit `int` range;
anything else throws (here: `none`). -/
def parseInt32 (s : String) : Option Int :=
  let step : Option Nat → Char → Option Nat := fun acc c =>
    match acc with
    | none => none
    | some n => if c.isDigit then some (n * 10 + (c.toNat - 48)) else none
  let signDigits : Int × List Char :=
    match s.data with
    | '+' :: rest => (1, rest)
    | '-' :: rest => (-1, rest)
    | cs => (1, cs)
  if signDigits.2 = [] then none
  else
    match signDigits.2.foldl step (some 0) with
    | none => none
    | some n =>
        let v : Int := signDigits.1 * (n : Int)
        if v < -2147483648 ∨ 2147483647 < v then none else some v

/-- The loop body of `MemoryTable::processCondition`: walks the condition
list, short-circuiting to `ok false` on the first failing predicate and
to `error` when `boost::lexical_cast` throws on a numeric comparison. -/
def processConditionCore (entry : Entry) : Condition → Except Unit Bool
  | [] => .ok true
  | (f, op, rhs) :: rest =>
      if entry.getStatus = DELETED then .ok false
      else
        let lhs := entry.getField f
        match op with
        | .eq => if lhs ≠ rhs then .ok false else processConditionCore entry rest
        | .ne => if lhs = rhs then .ok false else processConditionCore entry rest
        | _ =>
            let lhs' := if lhs = "" then "0" else lhs
            let rhs' := if rhs = "" then "0" else rhs
            match parseInt32 lhs', parseInt32 rhs' with
            | some lhsNum, some rhsNum =>
                match op with
                | .gt =>
                    if lhsNum ≤ rhsNum then .ok false
                    else processConditionCore entry rest
                | .ge =>
                    if lhsNum < rhsNum then .ok false
                    else processConditionCore entry rest
                | .lt =>
                    if lhsNum ≥ rhsNum then .ok false
                    else processConditionCore entry rest
                | .le =>
                    if lhsNum > rhsNum then .ok false
                    else processConditionCore entry rest
                | _ => processConditionCore entry rest
            | _, _ => .error ()

/-- `MemoryTable::processCondition`: the catch handler turns a thrown cast
error into a non-match. -/
def processCondition (entry : Entry) (cond : Condition) : Bool :=
  match processConditionCore entry cond with
  | .ok b => b
  | .error _ => false

/-- `MemoryTable::processEntries`: an empty condition selects every index;
otherwise the indices whose entry satisfies the condition, ascending. -/
def processEntries (es : Entries) (cond : Condition) : List Nat :=
  if cond = [] then List.range es.size
  else (List.range es.size).filter
    (fun i => processCondition (es.entries.getD i default) cond)

/-- `MemoryTable::checkAuthority`. -/
def checkAuthority (info : TableInfo) (origin : String) : Bool :=
  if info.authorizedAddress = [] then true
  else info.authorizedAddress.contains origin

/-- `MemoryTable::checkField`: every field name of the entry other than
`_id_` must appear in the schema, else `std::invalid_argument` is thrown. -/
def checkField (info : TableInfo) (e : Entry) : Except Unit Unit :=
  if e.fields.all (fun p => p.1 = "_id_" || info.fields.contains p.1) then .ok ()
  else .error ()

/-- Which branch of `MemoryTable::selectCache` ran: the lock-free first-miss
fetch, the miss with no fetch, the exclusive tombstone reload, the
tombstone with no fetch, or a plain cache hit. -/
inductive SelectPath
  | missFetch | missSkip | tombFetch | tombSkip | hit
deriving DecidableEq, Repr

/-- `MemoryTable::selectCache` before its final null-to-fresh step: returns
the raw (possibly null) `Entries::Ptr`, the updated state and the branch
taken.  A throw from `RemoteStore::select` propagates, carrying the state
at the throw point. -/
def selectCacheRaw (st : TableState) (key : String) (needSelect : Bool) :
    Except TableState (Option Entries × TableState × SelectPath) :=
  match st.cache.find? key with
  | none =>
      match st.remote, needSelect with
      | some f, true =>
          match f key with
          | .error _ => .error st
          | .ok r =>
              .ok (r, { st with cache := st.cache.insertKeep key r }, .missFetch)
      | _, _ => .ok (none, st, .missSkip)
  | some none =>
      match st.remote, needSelect with
      | some f, true =>
          match f key with
          | .error _ => .error st
          | .ok r =>
              .ok (r, { st with cache := st.cache.setKey key r }, .tombFetch)
      | _, _ => .ok (none, st, .tombSkip)
  | some (some es) => .ok (some es, st, .hit)

/-- A null resolved pointer is replaced by a freshly allocated empty
`Entries` (`std::make_shared<Entries>()`). -/
def freshIfNone (r : Option Entries) : Entries := r.getD ⟨[], false⟩

/-- `MemoryTable::selectCache`. -/
def selectCache (st : TableState) (key : String) (needSelect : Bool) :
    Except TableState (Entries × TableState × SelectPath) :=
  match selectCacheRaw st key needSelect with
  | .error st' => .error st'
  | .ok (r, st', p) => .ok (freshIfNone r, st', p)

/-- The per-index inner loop of `MemoryTable::update`: for each patch field,
record `(name, old value)` and then apply the write to the entry. -/
def applyPatch : List (String × String) → Entry → Entry × List (String × String)
  | [], e => (e, [])
  | (n, v) :: rest, e =>
      let old := e.getField n
      let r := applyPatch rest (e.setField n v)
      (r.1, (n, old) :: r.2)

/-- The matched-index loop of `MemoryTable::update`: mutate each indexed
entry through the cached list, accumulating the journal records in
order. -/
def updateEntries (ps : List (String × String)) :
    List Nat → List Entry → List Entry × List ChangeRecord
  | [], es => (es, [])
  | i :: rest, es =>
      let e := es.getD i default
      let r := applyPatch ps e
      let r' := updateEntries ps rest (es.set i r.1)
      (r'.1, r.2.map (fun p => ⟨i, p.1, p.2⟩) ++ r'.2)

/-- The matched-index loop of `MemoryTable::remove`: set each indexed
entry's status to `1` and record its index. -/
def removeEntries : List Nat → List Entry → List Entry × List ChangeRecord
  | [], es => (es, [])
  | i :: rest, es =>
      let e := (es.getD i default).setStatus 1
      let r := removeEntries rest (es.set i e)
      (r.1, ⟨i, "", ""⟩ :: r.2)

/-- `MemoryTable::select`: resolve the cache, filter by the condition,
return the matching rows; any exception yields an empty result. -/
def selectOp (st : TableState) (key : String) (cond : Condition) :
    Entries × TableState :=
  match selectCacheRaw st key true with
  | .error st' => (⟨[], false⟩, st')
  | .ok (raw, st1, _) =>
      let es := freshIfNone raw
      let indexes := processEntries es cond
      let result := indexes.foldl
        (fun acc i => acc.addEntry (es.entries.getD i default)) ⟨[], false⟩
      (result, st1)

/-- `MemoryTable::update` without its catch handler.  The `Entries` the
mutation went through is written back to the slot it aliases exactly when
the resolved pointer was non-null. -/
def updateCore (st : TableState) (key : String) (entry : Entry)
    (cond : Condition) (options : AccessOptions) :
    Except TableState (Int × TableState × List Change) :=
  if options.check && !checkAuthority st.info options.origin then
    .ok (CODE_NO_AUTHORIZED, st, [])
  else
    match selectCacheRaw st key true with
    | .error st' => .error st'
    | .ok (raw, st1, _) =>
        let es := freshIfNone raw
        if es.size = 0 then .ok (0, st1, [])
        else
          match checkField st1.info entry with
          | .error _ => .error st1
          | .ok _ =>
              let indexes := processEntries es cond
              let r := updateEntries entry.fields indexes es.entries
              let emitted :=
                if st1.recorder then [⟨.Update, key, r.2⟩] else []
              let es' := Entries.setDirty ⟨r.1, es.dirty⟩ true
              let st2 :=
                match raw with
                | some _ => { st1 with cache := st1.cache.setKey key (some es') }
                | none => st1
              .ok ((indexes.length : Int), st2, emitted)

/-- `MemoryTable::update`: the catch handler returns `0`, keeping the state
reached at the throw point. -/
def update (st : TableState) (key : String) (entry : Entry)
    (cond : Condition) (options : AccessOptions) :
    Int × TableState × List Change :=
  match updateCore st key entry cond options with
  | .ok r => r
  | .error st' => (0, st', [])

/-- `MemoryTable::insert` without its catch handler.  When the resolved
`Entries` is empty, the appended-to `Entries` is written back through its
alias (when it has one) and then offered to the cache with
first-inserter-wins semantics. -/
def insertCore (st : TableState) (key : String) (entry : Entry)
    (options : AccessOptions) (needSelect : Bool) :
    Except TableState (Int × TableState × List Change) :=
  if options.check && !checkAuthority st.info options.origin then
    .ok (CODE_NO_AUTHORIZED, st, [])
  else
    match selectCacheRaw st key needSelect with
    | .error st' => .error st'
    | .ok (raw, st1, _) =>
        let es := freshIfNone raw
        match checkField st1.info entry with
        | .error _ => .error st1
        | .ok _ =>
            let record : ChangeRecord := ⟨es.size, "", ""⟩
            let emitted :=
              if st1.recorder then [⟨.Insert, key, [record]⟩] else []
            let es' := es.addEntry entry
            if es.size = 0 then
              let stA :=
                match raw with
                | some _ => { st1 with cache := st1.cache.setKey key (some es') }
                | none => st1
              .ok (1, { stA with cache := stA.cache.insertKeep key (some es') },
                   emitted)
            else
              let st2 :=
                match raw with
                | some _ => { st1 with cache := st1.cache.setKey key (some es') }
                | none => st1
              .ok (1, st2, emitted)

/-- `MemoryTable::insert`: the catch handler still returns `1`, keeping the
state reached at the throw point. -/
def insertOp (st : TableState) (key : String) (entry : Entry)
    (options : AccessOptions) (needSelect : Bool) :
    Int × TableState × List Change :=
  match insertCore st key entry options needSelect with
  | .ok r => r
  | .error st' => (1, st', [])

/-- `MemoryTable::remove`.  Unlike `update` and `insert` it has no
try/catch, so a throw from `RemoteStore::select` propagates to the
caller.  The guard `if (!entries && entries->size() != 0)` of the source
is omitted: `selectCache` never yields a null pointer, so the guard's
condition is always false. -/
def remove (st : TableState) (key : String) (cond : Condition)
    (options : AccessOptions) :
    Except TableState (Int × TableState × List Change) :=
  if options.check && !checkAuthority st.info options.origin then
    .ok (CODE_NO_AUTHORIZED, st, [])
  else
    match selectCacheRaw st key true with
    | .error st' => .error st'
    | .ok (raw, st1, _) =>
        let es := freshIfNone raw
        let indexes := processEntries es cond
        let r := removeEntries indexes es.entries
        let emitted := if st1.recorder then [⟨.Remove, key, r.2⟩] else []
        let es' := Entries.setDirty ⟨r.1, es.dirty⟩ true
        let st2 :=
          match raw with
          | some _ => { st1 with cache := st1.cache.setKey key (some es') }
          | none => st1
        .ok ((indexes.length : Int), st2, emitted)

/-- The record loop of `rollback`'s `Update` case: restore each recorded
field of the indexed entry to its recorded old value, in journal order. -/
def rollbackUpdateEntries (recs : List ChangeRecord) (es : List Entry) :
    List Entry :=
  recs.foldl
    (fun l r => l.set r.index ((l.getD r.index default).setField r.key r.oldValue))
    es

/-- The record loop of `rollback`'s `Remove` case: set each indexed entry's
status back to `0`. -/
def rollbackRemoveEntries (recs : List ChangeRecord) (es : List Entry) :
    List Entry :=
  recs.foldl (fun l r => l.set r.index ((l.getD r.index default).setStatus 0)) es

/-- `MemoryTable::rollback`.  `none` models a crash: dereferencing the null
(or freshly default-constructed) `Entries::Ptr` produced by
`m_cache[_change.key]`, indexing `value[0]` of an empty record vector, or
`entries->get` on an out-of-range recorded index. -/
def rollback (st : TableState) (ch : Change) : Option TableState :=
  match ch.kind with
  | .Insert =>
      match st.cache.find? ch.key with
      | some (some es) =>
          match ch.value with
          | [] => none
          | r :: _ =>
              let es' := es.removeEntry r.index
              if es'.size = 0 then
                some { st with cache := st.cache.setKey ch.key none }
              else
                some { st with cache := st.cache.setKey ch.key (some es') }
      | _ => none
  | .Update =>
      match st.cache.find? ch.key with
      | some (some es) =>
          if ch.value.all (fun r => r.index < es.size) then
            let es' : Entries := { es with entries := rollbackUpdateEntries ch.value es.entries }
            some { st with cache := st.cache.setKey ch.key (some es') }
          else none
      | _ => none
  | .Remove =>
      match st.cache.find? ch.key with
      | some (some es) =>
          if ch.value.all (fun r => r.index < es.size) then
            let es' : Entries := { es with entries := rollbackRemoveEntries ch.value es.entries }
            some { st with cache := st.cache.setKey ch.key (some es') }
          else none
      | _ => none
  | .Select => some st

/-- The `STATUS` field-name constant of `Table.h` (not under `src/`);
modelled from the spec, which names it `"_status_"`. -/
def STATUS : String := "_status_"

/-- `std::string::substr(pos, len)` on the byte string. -/
def strSub (s : String) (pos len : Nat) : String :=
  ⟨(s.data.drop pos).take len⟩

/-- `MemoryTable::isHashField`. -/
def isHashField (k : String) : Bool :=
  if k ≠ "" then
    (strSub k 0 1 ≠ "_" && strSub k (k.length - 1) 1 ≠ "_") || k = STATUS
  else false

/-- The inner field loop of `MemoryTable::hash`: append name and value of
every hash field of the entry to the accumulator buffer. -/
def entryHashData (acc : String) (e : Entry) : String :=
  e.fields.foldl (fun a p => if isHashField p.1 then a ++ p.1 ++ p.2 else a) acc

/-- The entry loop of `MemoryTable::hash`: only dirty entries contribute. -/
def entriesHashData (acc : String) (es : Entries) : String :=
  es.entries.foldl (fun a e => if e.dirty then entryHashData a e else a) acc

/-- `MemoryTable::cacheSize`. -/
def cacheSize (st : TableState) : Nat := st.cache.length

/-- `MemoryTable::empty`: true iff every cache slot is the null tombstone. -/
def tableEmpty (st : TableState) : Bool :=
  st.cache.all (fun p => p.2.isNone)

/-! ### Generic list lemmas -/

theorem getD_set_ne {α : Type} (l : List α) (i j : Nat) (x : α) (d : α)
    (h : i ≠ j) : (l.set i x).getD j d = l.getD j d := by
  induction l generalizing i j with
  | nil => simp [List.set]
  | cons a t ih =>
      cases i with
      | zero =>
          cases j with
          | zero => exact absurd rfl h
          | succ j => simp [List.set, List.getD]
      | succ i =>
          cases j with
          | zero => simp [List.set, List.getD]
          | succ j =>
              simp only [List.set, List.getD_cons_succ]
              exact ih i j (fun hc => h (by simp [hc]))

theorem getD_set_self {α : Type} (l : List α) (i : Nat) (x : α) (d : α)
    (h : i < l.length) : (l.set i x).getD i d = x := by
  induction l generalizing i with
  | nil => simp at h
  | cons a t ih =>
      cases i with
      | zero => simp [List.set, List.getD]
      | succ i =>
          simp only [List.set, List.getD_cons_succ]
          exact ih i (by simpa using h)

theorem eraseIdx_append_length {α : Type} (l : List α) (x : α) :
    (l ++ [x]).eraseIdx l.length = l := by
  induction l with
  | nil => rfl
  | cons a t ih => simpa [List.eraseIdx] using ih

/-! ### Entry field lemmas -/

theorem lookup_setFields_self (fs : List (String × String)) (n v : String) :
    lookupField (setFields fs n v) n = some v := by
  induction fs with
  | nil => simp [setFields, lookupField]
  | cons p t ih =>
      cases p with
      | mk q w =>
          by_cases h : q = n
          · simp [setFields, h, lookupField]
          · simp [setFields, h, lookupField, ih]

theorem lookup_setFields_ne (fs : List (String × String)) (n m v : String)
    (h : n ≠ m) : lookupField (setFields fs m v) n = lookupField fs n := by
  induction fs with
  | nil => simp [setFields, lookupField, Ne.symm h]
  | cons p t ih =>
      cases p with
      | mk q w =>
          by_cases hq : q = m
          · subst hq
            simp [setFields, lookupField, Ne.symm h]
          · by_cases hn : q = n
            · simp [setFields, hq, lookupField, hn, h]
            · simp [setFields, hq, lookupField, hn, ih]

theorem getField_setField_self (e : Entry) (n v : String) :
    (e.setField n v).getField n = v := by
  simp [Entry.getField, Entry.setField, lookup_setFields_self]

theorem getField_setField_ne (e : Entry) (n m v : String) (h : n ≠ m) :
    (e.setField m v).getField n = e.getField n := by
  simp [Entry.getField, Entry.setField, lookup_setFields_ne _ _ _ _ h]

theorem status_setField (e : Entry) (n v : String) :
    (e.setField n v).status = e.status := rfl

theorem fields_setStatus (e : Entry) (s : Nat) :
    (e.setStatus s).fields = e.fields := rfl

/-! ### Field-observation equality and the per-entry roundtrip -/

/-- Two entries agree on every observable field value. -/
def FieldsEq (a b : Entry) : Prop :=
  ∀ n, a.getField n = b.getField n

theorem fieldsEq_refl (a : Entry) : FieldsEq a a := fun _ => rfl

theorem fieldsEq_trans {a b c : Entry} (h1 : FieldsEq a b) (h2 : FieldsEq b c) :
    FieldsEq a c := fun n => (h1 n).trans (h2 n)

theorem setField_congr {a b : Entry} (n v : String) (h : FieldsEq a b) :
    FieldsEq (a.setField n v) (b.setField n v) := by
  intro m
  by_cases hm : m = n
  · subst hm; simp [getField_setField_self]
  · rw [getField_setField_ne _ _ _ _ hm, getField_setField_ne _ _ _ _ hm]
    exact h m

theorem setField_comm {a : Entry} {m n : String} (v w : String) (h : m ≠ n) :
    FieldsEq ((a.setField m w).setField n v) ((a.setField n v).setField m w) := by
  intro x
  by_cases hx : x = n
  · subst hx
    rw [getField_setField_self, getField_setField_ne _ _ _ _ (Ne.symm h),
      getField_setField_self]
  · rw [getField_setField_ne _ _ _ _ hx]
    by_cases hxm : x = m
    · subst hxm
      rw [getField_setField_self, getField_setField_self]
    · rw [getField_setField_ne _ _ _ _ hxm, getField_setField_ne _ _ _ _ hxm,
        getField_setField_ne _ _ _ _ hx]

/-- Replay a per-entry record list `(name, old value)` onto an entry, in
journal order. -/
def replayFields (e : Entry) (recs : List (String × String)) : Entry :=
  recs.foldl (fun a p => a.setField p.1 p.2) e

theorem replayFields_congr {a b : Entry} (recs : List (String × String))
    (h : FieldsEq a b) : FieldsEq (replayFields a recs) (replayFields b recs) := by
  induction recs generalizing a b with
  | nil => exact h
  | cons p t ih => exact ih (setField_congr p.1 p.2 h)

theorem replayFields_setField_comm {a : Entry} {n : String} (v : String)
    (recs : List (String × String)) (h : n ∉ recs.map Prod.fst) :
    FieldsEq (replayFields (a.setField n v) recs)
      ((replayFields a recs).setField n v) := by
  induction recs generalizing a with
  | nil => exact fieldsEq_refl _
  | cons p t ih =>
      simp only [List.map_cons, List.mem_cons] at h
      push_neg at h
      have hcomm := setField_comm (a := a) (m := n) (n := p.1) p.2 v h.1
      have step : FieldsEq (replayFields ((a.setField n v).setField p.1 p.2) t)
          (replayFields ((a.setField p.1 p.2).setField n v) t) :=
        replayFields_congr t hcomm
      exact fieldsEq_trans step (ih h.2)

theorem applyPatch_record_names (ps : List (String × String)) (e : Entry) :
    (applyPatch ps e).2.map Prod.fst = ps.map Prod.fst := by
  induction ps generalizing e with
  | nil => rfl
  | cons p t ih => simp [applyPatch, ih]

/-- Replaying the records of `applyPatch` in journal order restores every
observable field value, provided the patch's field names are unique (an
invariant of the C++ field map). -/
theorem applyPatch_replay (ps : List (String × String)) (e : Entry)
    (h : (ps.map Prod.fst).Nodup) :
    FieldsEq (replayFields (applyPatch ps e).1 (applyPatch ps e).2) e := by
  induction ps generalizing e with
  | nil => exact fieldsEq_refl _
  | cons p t ih =>
      obtain ⟨n, v⟩ := p
      simp only [List.map_cons, List.nodup_cons] at h
      have hrec : n ∉ (applyPatch t (e.setField n v)).2.map Prod.fst := by
        rw [applyPatch_record_names]; exact h.1
      have ih' : FieldsEq
          (replayFields (applyPatch t (e.setField n v)).1
            (applyPatch t (e.setField n v)).2)
          (e.setField n v) := ih _ h.2
      have comm := replayFields_setField_comm (a := (applyPatch t (e.setField n v)).1)
        (n := n) (e.getField n) (applyPatch t (e.setField n v)).2 hrec
      intro m
      show (replayFields ((applyPatch t (e.setField n v)).1.setField n (e.getField n))
          (applyPatch t (e.setField n v)).2).getField m = e.getField m
      rw [comm m, setField_congr n (e.getField n) ih' m]
      by_cases hm : m = n
      · subst hm
        rw [getField_setField_self]
      · rw [getField_setField_ne _ _ _ _ hm, getField_setField_ne _ _ _ _ hm]

/-! ### List-level update/rollback lemmas -/

theorem updateEntries_length (ps : List (String × String)) (idxs : List Nat)
    (es : List Entry) : (updateEntries ps idxs es).1.length = es.length := by
  induction idxs generalizing es with
  | nil => rfl
  | cons i rest ih => simp [updateEntries, ih]

theorem updateEntries_getD_not_mem (ps : List (String × String))
    (idxs : List Nat) (es : List Entry) (j : Nat) (h : j ∉ idxs) :
    (updateEntries ps idxs es).1.getD j default = es.getD j default := by
  induction idxs generalizing es with
  | nil => rfl
  | cons i rest ih =>
      simp only [List.mem_cons] at h
      push_neg at h
      simp only [updateEntries]
      rw [ih _ h.2, getD_set_ne _ _ _ _ _ (fun hc => h.1 (hc.symm))]

theorem updateEntries_record_index (ps : List (String × String))
    (idxs : List Nat) (es : List Entry) (r : ChangeRecord)
    (h : r ∈ (updateEntries ps idxs es).2) : r.index ∈ idxs := by
  induction idxs generalizing es with
  | nil => simp [updateEntries] at h
  | cons i rest ih =>
      simp only [updateEntries, List.mem_append, List.mem_map] at h
      rcases h with h | h
      · obtain ⟨p, _, hp⟩ := h
        rw [← hp]
        exact List.mem_cons_self i rest
      · exact List.mem_cons_of_mem i (ih _ h)

theorem set_length_le {α : Type} (l : List α) (i : Nat) (x : α)
    (h : l.length ≤ i) : l.set i x = l := by
  induction l generalizing i with
  | nil => rfl
  | cons a t ih =>
      cases i with
      | zero => simp at h
      | succ i => simp only [List.set]; rw [ih i (by simpa using h)]

theorem rollbackUpdateEntries_cons (r : ChangeRecord) (t : List ChangeRecord)
    (es : List Entry) :
    rollbackUpdateEntries (r :: t) es
      = rollbackUpdateEntries t
          (es.set r.index ((es.getD r.index default).setField r.key r.oldValue)) := rfl

theorem rollbackRemoveEntries_cons (r : ChangeRecord) (t : List ChangeRecord)
    (es : List Entry) :
    rollbackRemoveEntries (r :: t) es
      = rollbackRemoveEntries t
          (es.set r.index ((es.getD r.index default).setStatus 0)) := rfl

theorem rollbackUpdateEntries_length (recs : List ChangeRecord)
    (es : List Entry) : (rollbackUpdateEntries recs es).length = es.length := by
  induction recs generalizing es with
  | nil => rfl
  | cons r t ih => rw [rollbackUpdateEntries_cons, ih, List.length_set]

theorem rollbackUpdateEntries_getD_not_idx (recs : List ChangeRecord)
    (es : List Entry) (j : Nat) (h : ∀ r ∈ recs, r.index ≠ j) :
    (rollbackUpdateEntries recs es).getD j default = es.getD j default := by
  induction recs generalizing es with
  | nil => rfl
  | cons r t ih =>
      have hr : r.index ≠ j := h r (List.mem_cons_self r t)
      rw [rollbackUpdateEntries_cons,
        ih _ (fun x hx => h x (List.mem_cons_of_mem r hx)),
        getD_set_ne _ _ _ _ _ hr]

theorem rollbackUpdateEntries_local (recs : List ChangeRecord)
    (es1 es2 : List Entry) (j : Nat) (hlen : es1.length = es2.length)
    (h : es1.getD j default = es2.getD j default) :
    (rollbackUpdateEntries recs es1).getD j default
      = (rollbackUpdateEntries recs es2).getD j default := by
  induction recs generalizing es1 es2 with
  | nil => exact h
  | cons r t ih =>
      rw [rollbackUpdateEntries_cons, rollbackUpdateEntries_cons]
      apply ih
      · simp [hlen]
      · by_cases hr : r.index = j
        · subst hr
          by_cases hj : r.index < es1.length
          · rw [getD_set_self _ _ _ _ hj, getD_set_self _ _ _ _ (hlen ▸ hj), h]
          · rw [set_length_le _ _ _ (by omega), set_length_le _ _ _ (by omega), h]
        · rw [getD_set_ne _ _ _ _ _ hr, getD_set_ne _ _ _ _ _ hr, h]

theorem rollbackUpdateEntries_map_getD (ps : List (String × String))
    (i : Nat) (es : List Entry) (h : i < es.length) :
    (rollbackUpdateEntries (ps.map (fun p => ⟨i, p.1, p.2⟩)) es).getD i default
      = replayFields (es.getD i default) ps := by
  induction ps generalizing es with
  | nil => rfl
  | cons p t ih =>
      simp only [List.map_cons]
      rw [rollbackUpdateEntries_cons, ih _ (by simp [h]), getD_set_self _ _ _ _ h]
      rfl

/-- The update loop followed by replaying its full journal restores every
entry's observable fields, for distinct matched indices in range and a
patch with unique field names. -/
theorem updateEntries_roundtrip (ps : List (String × String)) (idxs : List Nat)
    (es : List Entry) (hn : idxs.Nodup) (hlt : ∀ i ∈ idxs, i < es.length)
    (hps : (ps.map Prod.fst).Nodup) (j : Nat) :
    FieldsEq
      ((rollbackUpdateEntries (updateEntries ps idxs es).2
          (updateEntries ps idxs es).1).getD j default)
      (es.getD j default) := by
  induction idxs generalizing es j with
  | nil => exact fieldsEq_refl _
  | cons i rest ih =>
      simp only [List.nodup_cons] at hn
      have hi : i < es.length := hlt i (List.mem_cons_self i rest)
      have hlen1 : (es.set i (applyPatch ps (es.getD i default)).1).length
          = es.length := List.length_set ..
      have hltr : ∀ x ∈ rest,
          x < (es.set i (applyPatch ps (es.getD i default)).1).length := by
        intro x hx
        rw [hlen1]
        exact hlt x (List.mem_cons_of_mem i hx)
      simp only [updateEntries]
      rw [rollbackUpdateEntries]
      rw [List.foldl_append]
      rw [show ∀ l es0, List.foldl
          (fun l r => l.set r.index ((l.getD r.index default).setField r.key r.oldValue))
          es0 l = rollbackUpdateEntries l es0 from fun _ _ => rfl]
      rw [show ∀ l es0, List.foldl
          (fun l r => l.set r.index ((l.getD r.index default).setField r.key r.oldValue))
          es0 l = rollbackUpdateEntries l es0 from fun _ _ => rfl]
      set e := es.getD i default with he
      set es1 := es.set i (applyPatch ps e).1 with hes1
      set u := updateEntries ps rest es1 with hu
      have hulen : u.1.length = es.length := by
        rw [hu, updateEntries_length, hes1, List.length_set]
      have hmid_i :
          (rollbackUpdateEntries ((applyPatch ps e).2.map
              (fun p => ⟨i, p.1, p.2⟩)) u.1).getD i default
            = replayFields (u.1.getD i default) (applyPatch ps e).2 :=
        rollbackUpdateEntries_map_getD _ _ _ (by rw [hulen]; exact hi)
      have hu_i : u.1.getD i default = (applyPatch ps e).1 := by
        rw [hu, updateEntries_getD_not_mem _ _ _ _ hn.1, hes1,
          getD_set_self _ _ _ _ hi]
      by_cases hj : j = i
      · subst hj
        have hnotouch : ∀ r ∈ u.2, r.index ≠ j := by
          intro r hr hc
          exact hn.1 (hc ▸ updateEntries_record_index _ _ _ _ hr)
        rw [rollbackUpdateEntries_getD_not_idx _ _ _ hnotouch, hmid_i, hu_i]
        exact fieldsEq_trans (applyPatch_replay ps e hps) (fieldsEq_refl _)
      · have hmid_j :
            (rollbackUpdateEntries ((applyPatch ps e).2.map
                (fun p => ⟨i, p.1, p.2⟩)) u.1).getD j default
              = u.1.getD j default := by
          apply rollbackUpdateEntries_getD_not_idx
          intro r hr
          simp only [List.mem_map] at hr
          obtain ⟨p, _, hp⟩ := hr
          rw [← hp]
          exact fun hc => hj (hc.symm)
        have hmid_len :
            (rollbackUpdateEntries ((applyPatch ps e).2.map
                (fun p => ⟨i, p.1, p.2⟩)) u.1).length = u.1.length :=
          rollbackUpdateEntries_length _ _
        have hes1j : es1.getD j default = es.getD j default := by
          rw [hes1]
          exact getD_set_ne _ _ _ _ _ (fun hc => hj hc.symm)
        rw [rollbackUpdateEntries_local u.2 _ u.1 j hmid_len hmid_j]
        have hthis := ih es1 hn.2 hltr j
        rw [hes1j] at hthis
        exact hthis

/-! ### Cache lemmas -/

theorem find?_setKey_self (c : Cache) (k : String) (v : Option Entries) :
    (c.setKey k v).find? k = some v := by
  induction c with
  | nil => simp [Cache.setKey, Cache.find?]
  | cons p t ih =>
      cases p with
      | mk k' v' =>
          by_cases h : k' = k
          · simp [Cache.setKey, h, Cache.find?]
          · simp [Cache.setKey, h, Cache.find?, ih]

theorem find?_setKey_ne (c : Cache) (k k' : String) (v : Option Entries)
    (h : k' ≠ k) : (c.setKey k v).find? k' = c.find? k' := by
  induction c with
  | nil => simp [Cache.setKey, Cache.find?, Ne.symm h]
  | cons p t ih =>
      cases p with
      | mk q w =>
          by_cases hq : q = k
          · subst hq
            simp [Cache.setKey, Cache.find?, Ne.symm h]
          · by_cases hk : q = k'
            · subst hk
              simp [Cache.setKey, h, Cache.find?]
            · simp [Cache.setKey, hq, Cache.find?, hk, ih]

theorem setKey_length (c : Cache) (k : String) (v w : Option Entries)
    (h : c.find? k = some w) : (c.setKey k v).length = c.length := by
  induction c with
  | nil => simp [Cache.find?] at h
  | cons p t ih =>
      cases p with
      | mk q w' =>
          by_cases hq : q = k
          · simp [Cache.setKey, hq]
          · simp only [Cache.find?, if_neg hq] at h
            simp [Cache.setKey, hq, ih h]

theorem insertKeep_present (c : Cache) (k : String) (v w : Option Entries)
    (h : c.find? k = some w) : c.insertKeep k v = c := by
  simp [Cache.insertKeep, h]

theorem find?_insertKeep_absent (c : Cache) (k : String) (v : Option Entries)
    (h : c.find? k = none) : (c.insertKeep k v).find? k = some v := by
  simp only [Cache.insertKeep, h]
  induction c with
  | nil => simp [Cache.find?]
  | cons p t ih =>
      cases p with
      | mk q w =>
          by_cases hq : q = k
          · simp [Cache.find?, hq] at h
          · simp only [Cache.find?, if_neg hq] at h
            simp [Cache.find?, hq, ih h]

theorem insertKeep_length_absent (c : Cache) (k : String) (v : Option Entries)
    (h : c.find? k = none) : (c.insertKeep k v).length = c.length + 1 := by
  simp [Cache.insertKeep, h]

/-! ### Condition-evaluator lemmas -/

theorem processCondition_nil (e : Entry) : processCondition e [] = true := rfl

theorem processEntries_eq_filter (es : Entries) (cond : Condition) :
    processEntries es cond
      = (List.range es.size).filter
          (fun i => processCondition (es.entries.getD i default) cond) := by
  cases cond with
  | nil =>
      simp only [processEntries, if_pos rfl]
      exact (List.filter_eq_self.mpr (fun a _ => rfl)).symm
  | cons c t => rfl

theorem processEntries_mem_lt (es : Entries) (cond : Condition) (i : Nat)
    (h : i ∈ processEntries es cond) : i < es.size := by
  rw [processEntries_eq_filter] at h
  exact List.mem_range.mp (List.mem_of_mem_filter h)

theorem processEntries_nodup (es : Entries) (cond : Condition) :
    (processEntries es cond).Nodup := by
  rw [processEntries_eq_filter]
  exact (List.nodup_range _).filter _

/-- C1: Update is reversible: for every cached key with non-empty
`Entries` and every patch whose fields pass `checkField` (and whose field
names are unique, the invariant of the C++ field map), running `update`
and then `rollback` on the emitted `Change{Update, key, records}`
restores the `Entries` for that key to the exact field values it had
immediately before the update, for every entry and every field. -/
theorem update_rollback_restores_fields
    (st : TableState) (k : String) (patch : Entry) (cond : Condition)
    (opts : AccessOptions) (es : Entries)
    (hslot : st.cache.find? k = some (some es))
    (hne : es.entries ≠ [])
    (hauth : opts.check = false ∨ checkAuthority st.info opts.origin = true)
    (hcf : checkField st.info patch = Except.ok ())
    (hps : (patch.fields.map Prod.fst).Nodup)
    (hrec : st.recorder = true) :
    ∃ st1 recs st2 es2,
      update st k patch cond opts
        = (((processEntries es cond).length : Int), st1,
            [⟨ChangeKind.Update, k, recs⟩])
      ∧ rollback st1 ⟨ChangeKind.Update, k, recs⟩ = some st2
      ∧ st2.cache.find? k = some (some es2)
      ∧ es2.entries.length = es.entries.length
      ∧ ∀ i n, (es2.entries.getD i default).getField n
          = (es.entries.getD i default).getField n := by
  have hguard : (opts.check && !checkAuthority st.info opts.origin) = false := by
    rcases hauth with h | h
    · simp [h]
    · simp [h]
  have hsize : ¬ es.size = 0 := by
    simpa [Entries.size, List.length_eq_zero] using hne
  have hupd : update st k patch cond opts
      = (((processEntries es cond).length : Int),
         { st with cache := st.cache.setKey k (some ⟨(updateEntries patch.fields (processEntries es cond) es.entries).1, true⟩) },
         [⟨ChangeKind.Update, k,
            (updateEntries patch.fields (processEntries es cond) es.entries).2⟩]) := by
    unfold update updateCore selectCacheRaw
    rw [hslot, hguard]
    simp [freshIfNone, hcf, hrec, hsize, Entries.setDirty]
  have hall : ((updateEntries patch.fields (processEntries es cond) es.entries).2.all (fun r => decide (r.index < (Entries.mk (updateEntries patch.fields (processEntries es cond) es.entries).1 true).size))) = true := by
    rw [List.all_eq_true]
    intro r hr
    rw [decide_eq_true_eq]
    show r.index < (updateEntries patch.fields (processEntries es cond) es.entries).1.length
    rw [updateEntries_length]
    exact processEntries_mem_lt es cond r.index (updateEntries_record_index _ _ _ _ hr)
  have hroll : rollback { st with cache := st.cache.setKey k (some ⟨(updateEntries patch.fields (processEntries es cond) es.entries).1, true⟩) } ⟨ChangeKind.Update, k, (updateEntries patch.fields (processEntries es cond) es.entries).2⟩ = some { st with cache := (st.cache.setKey k (some ⟨(updateEntries patch.fields (processEntries es cond) es.entries).1, true⟩)).setKey k (some ⟨rollbackUpdateEntries (updateEntries patch.fields (processEntries es cond) es.entries).2 (updateEntries patch.fields (processEntries es cond) es.entries).1, true⟩) } := by
    unfold rollback
    simp only [find?_setKey_self]
    rw [if_pos hall]
  have hfind : ((st.cache.setKey k (some ⟨(updateEntries patch.fields (processEntries es cond) es.entries).1, true⟩)).setKey k (some ⟨rollbackUpdateEntries (updateEntries patch.fields (processEntries es cond) es.entries).2 (updateEntries patch.fields (processEntries es cond) es.entries).1, true⟩)).find? k = some (some ⟨rollbackUpdateEntries (updateEntries patch.fields (processEntries es cond) es.entries).2 (updateEntries patch.fields (processEntries es cond) es.entries).1, true⟩) := find?_setKey_self _ _ _
  have hlen : (rollbackUpdateEntries (updateEntries patch.fields (processEntries es cond) es.entries).2 (updateEntries patch.fields (processEntries es cond) es.entries).1).length = es.entries.length := by
    rw [rollbackUpdateEntries_length, updateEntries_length]
  have hflds : ∀ i n, ((rollbackUpdateEntries (updateEntries patch.fields (processEntries es cond) es.entries).2 (updateEntries patch.fields (processEntries es cond) es.entries).1).getD i default).getField n = (es.entries.getD i default).getField n := by
    intro i n
    exact updateEntries_roundtrip patch.fields (processEntries es cond) es.entries (processEntries_nodup es cond) (fun x hx => processEntries_mem_lt es cond x hx) hps i n
  exact ⟨_, _, _, _, hupd, hroll, hfind, hlen, hflds⟩

/-- Witness for C1 at a concrete one-row table. -/
theorem update_rollback_restores_fields_witness :
    (Entries.mk [Entry.mk [("f", "A")] 0 false] false).entries ≠ [] ∧
    ∃ st1 recs st2 es2,
      update ⟨[("k", some (Entries.mk [Entry.mk [("f", "A")] 0 false] false))],
          none, ⟨"t", ["f"], []⟩, true⟩ "k" (Entry.mk [("f", "B")] 0 false) []
          ⟨"", false⟩
        = (((processEntries (Entries.mk [Entry.mk [("f", "A")] 0 false] false)
              []).length : Int), st1, [⟨ChangeKind.Update, "k", recs⟩])
      ∧ rollback st1 ⟨ChangeKind.Update, "k", recs⟩ = some st2
      ∧ st2.cache.find? "k" = some (some es2)
      ∧ es2.entries.length
          = (Entries.mk [Entry.mk [("f", "A")] 0 false] false).entries.length
      ∧ ∀ i n, (es2.entries.getD i default).getField n
          = ((Entries.mk [Entry.mk [("f", "A")] 0 false] false).entries.getD
              i default).getField n :=
  ⟨by decide,
    update_rollback_restores_fields _ "k" _ [] _ _ (by rfl) (by decide)
      (Or.inl rfl) (by rfl) (by decide) rfl⟩

/-- C3: Authority gate: for every mutating operation, when the authorized
set is non-empty, `options.check` holds and the origin is not in the set,
the operation returns `CODE_NO_AUTHORIZED`, leaves the whole state
untouched and emits no journal record; and `checkAuthority` is always
true on an empty authorized set. -/
theorem authority_gate_blocks_mutations
    (st : TableState) (k : String) (e : Entry) (cond : Condition)
    (opts : AccessOptions) (ns : Bool)
    (hne : st.info.authorizedAddress ≠ [])
    (hchk : opts.check = true)
    (hmem : st.info.authorizedAddress.contains opts.origin = false) :
    update st k e cond opts = (CODE_NO_AUTHORIZED, st, [])
    ∧ insertOp st k e opts ns = (CODE_NO_AUTHORIZED, st, [])
    ∧ remove st k cond opts = Except.ok (CODE_NO_AUTHORIZED, st, [])
    ∧ ∀ (info : TableInfo) (origin : String),
        info.authorizedAddress = [] → checkAuthority info origin = true := by
  have hca : checkAuthority st.info opts.origin = false := by
    unfold checkAuthority
    rw [if_neg hne]
    exact hmem
  refine ⟨?_, ?_, ?_, ?_⟩
  · unfold update updateCore
    rw [hchk, hca]
    rfl
  · unfold insertOp insertCore
    rw [hchk, hca]
    rfl
  · unfold remove
    rw [hchk, hca]
    rfl
  · intro info origin h
    simp [checkAuthority, h]

/-- Witness for C3: a checked origin outside a singleton authorized set. -/
theorem authority_gate_blocks_mutations_witness :
    update ⟨[], none, ⟨"t", ["f"], ["0xA"]⟩, true⟩ "k" ⟨[("f", "v")], 0, false⟩
        [] ⟨"0xB", true⟩
      = (CODE_NO_AUTHORIZED, ⟨[], none, ⟨"t", ["f"], ["0xA"]⟩, true⟩, [])
    ∧ insertOp ⟨[], none, ⟨"t", ["f"], ["0xA"]⟩, true⟩ "k" ⟨[("f", "v")], 0, false⟩
        ⟨"0xB", true⟩ true
      = (CODE_NO_AUTHORIZED, ⟨[], none, ⟨"t", ["f"], ["0xA"]⟩, true⟩, [])
    ∧ remove ⟨[], none, ⟨"t", ["f"], ["0xA"]⟩, true⟩ "k" [] ⟨"0xB", true⟩
      = Except.ok (CODE_NO_AUTHORIZED, ⟨[], none, ⟨"t", ["f"], ["0xA"]⟩, true⟩, [])
    ∧ ∀ (info : TableInfo) (origin : String),
        info.authorizedAddress = [] → checkAuthority info origin = true :=
  authority_gate_blocks_mutations _ "k" _ [] _ true (by decide) rfl (by decide)

/-- C6: Condition evaluation and deleted entries: an entry with status
`Deleted` matches no non-empty condition, and the empty condition selects
every index in ascending order, deleted entries included. -/
theorem deleted_entry_and_empty_condition
    (e : Entry) (c : String × CondOp × String) (cs : Condition)
    (hdel : e.getStatus = DELETED) :
    processCondition e (c :: cs) = false
    ∧ ∀ es : Entries, processEntries es [] = List.range es.size := by
  constructor
  · obtain ⟨f, op, rhs⟩ := c
    simp [processCondition, processConditionCore, hdel]
  · intro es
    rfl

/-- Witness for C6: a deleted entry against an `eq` predicate, and the
empty condition over a two-entry list with one deleted entry. -/
theorem deleted_entry_and_empty_condition_witness :
    processCondition ⟨[], 1, false⟩ [("f", CondOp.eq, "x")] = false
    ∧ ∀ es : Entries, processEntries es [] = List.range es.size :=
  deleted_entry_and_empty_condition ⟨[], 1, false⟩ ("f", CondOp.eq, "x") [] rfl

/-- C7: Numeric predicates: for `gt`/`ge`/`lt`/`le` both sides are parsed
as decimal 32-bit integers after coercing the empty string to `"0"`; a
parse failure on either side makes the entry non-matching; and the
evaluator filters every entry of the batch independently, so evaluation
of the other entries continues normally. -/
theorem numeric_predicate_semantics
    (e : Entry) (f : String) (op : CondOp) (rhs : String)
    (hop : op = CondOp.gt ∨ op = CondOp.ge ∨ op = CondOp.lt ∨ op = CondOp.le)
    (hdel : e.getStatus ≠ DELETED) :
    (processCondition e [(f, op, rhs)]
      = match parseInt32 (if e.getField f = "" then "0" else e.getField f),
          parseInt32 (if rhs = "" then "0" else rhs) with
        | some l, some r =>
            match op with
            | CondOp.gt => decide (r < l)
            | CondOp.ge => decide (r ≤ l)
            | CondOp.lt => decide (l < r)
            | CondOp.le => decide (l ≤ r)
            | _ => true
        | _, _ => false)
    ∧ ∀ (es : Entries) (cond : Condition),
        processEntries es cond
          = (List.range es.size).filter
              (fun i => processCondition (es.entries.getD i default) cond) := by
  constructor
  · have hnil : processConditionCore e [] = Except.ok true := rfl
    rcases hop with h | h | h | h <;> subst h <;>
      unfold processCondition processConditionCore <;>
      rw [if_neg hdel] <;>
      cases hl : parseInt32 (if e.getField f = "" then "0" else e.getField f) with
    | none => simp [hl]
    | some l =>
        cases hr : parseInt32 (if rhs = "" then "0" else rhs) with
        | none => simp [hl, hr]
        | some r =>
            simp only [hl, hr, hnil]
            split_ifs with hc <;> symm
            · simp only [decide_eq_false_iff_not]
              omega
            · simp only [decide_eq_true_eq]
              omega
  · intro es cond
    exact processEntries_eq_filter es cond

/-- Witness for C7: `gt` with empty field value and empty right-hand side,
both coerced to `"0"`, comparing `0 > 0` as false. -/
theorem numeric_predicate_semantics_witness :
    (processCondition ⟨[("age", "")], 0, false⟩ [("age", CondOp.gt, "")]
      = match parseInt32 (if (Entry.mk [("age", "")] 0 false).getField "age" = ""
            then "0" else (Entry.mk [("age", "")] 0 false).getField "age"),
          parseInt32 (if ("" : String) = "" then "0" else "") with
        | some l, some r =>
            match CondOp.gt with
            | CondOp.gt => decide (r < l)
            | CondOp.ge => decide (r ≤ l)
            | CondOp.lt => decide (l < r)
            | CondOp.le => decide (l ≤ r)
            | _ => true
        | _, _ => false)
    ∧ ∀ (es : Entries) (cond : Condition),
        processEntries es cond
          = (List.range es.size).filter
              (fun i => processCondition (es.entries.getD i default) cond) :=
  numeric_predicate_semantics ⟨[("age", "")], 0, false⟩ "age" CondOp.gt ""
    (Or.inl rfl) (by decide)

theorem foldl_if_filter {α β : Type} (p : α → Bool) (f : β → α → β)
    (l : List α) (init : β) :
    l.foldl (fun x y => if p y then f x y else x) init
      = (l.filter p).foldl f init := by
  induction l generalizing init with
  | nil => rfl
  | cons a t ih =>
      by_cases h : p a <;> simp [List.filter_cons, h, ih]

theorem drop_length_sub_one {α : Type} (l : List α) :
    l.drop (l.length - 1) = match l.getLast? with | some a => [a] | none => [] := by
  induction l with
  | nil => rfl
  | cons a t ih =>
      cases t with
      | nil => rfl
      | cons b t2 =>
          have h1 : (a :: b :: t2).length - 1 = t2.length + 1 := by simp
          rw [h1, List.drop_succ_cons, List.getLast?_cons_cons]
          have h2 : t2.length = (b :: t2).length - 1 := by simp
          rw [h2]
          exact ih

theorem strSub_head_ne (s : String) (c : Char) (t : List Char)
    (hdata : s.data = c :: t) :
    (strSub s 0 1 ≠ "_") ↔ c ≠ '_' := by
  unfold strSub
  rw [List.drop_zero, hdata]
  simp [String.ext_iff]

theorem strSub_last_ne (s : String) (x : Char)
    (hlast : s.data.getLast? = some x) :
    (strSub s (s.length - 1) 1 ≠ "_") ↔ x ≠ '_' := by
  unfold strSub
  have hlen : s.length = s.data.length := rfl
  rw [hlen, drop_length_sub_one, hlast]
  simp [String.ext_iff]

/-- C8: Hash-field filter: `isHashField name` holds iff the name is
non-empty and either neither its first nor its last character is `'_'`
or the name is the `STATUS` constant `"_status_"`; hence the `hash`
accumulator takes exactly the fields passing `isHashField` from each
dirty entry, excluding `_id_` and every other underscore-wrapped name. -/
theorem hash_field_filter :
    (∀ s : String, isHashField s = true
        ↔ s.data ≠ [] ∧ ((s.data.head? ≠ some '_' ∧ s.data.getLast? ≠ some '_')
            ∨ s = STATUS))
    ∧ (∀ (acc : String) (e : Entry),
        entryHashData acc e
          = (e.fields.filter (fun p => isHashField p.1)).foldl
              (fun a p => a ++ p.1 ++ p.2) acc)
    ∧ (∀ (acc : String) (es : Entries),
        entriesHashData acc es
          = (es.entries.filter (fun e => e.dirty)).foldl
              (fun a e => entryHashData a e) acc)
    ∧ isHashField "_id_" = false ∧ isHashField "_status_" = true := by
  refine ⟨?_, ?_, ?_, by decide, by decide⟩
  · intro s
    unfold isHashField
    by_cases hs : s = ""
    · subst hs
      simp
    · rw [if_pos hs]
      have hd : s.data ≠ [] := fun hc => hs (String.ext hc)
      rcases hdata : s.data with _ | ⟨c, t⟩
      · exact absurd hdata hd
      · have hLsome : ∃ x, s.data.getLast? = some x := by
          rcases hL : s.data.getLast? with _ | x
          · rw [List.getLast?_eq_none_iff] at hL
            exact absurd hL hd
          · exact ⟨x, rfl⟩
        obtain ⟨x, hL⟩ := hLsome
        have hh := strSub_head_ne s c t hdata
        have hl := strSub_last_ne s x hL
        rw [Bool.or_eq_true, Bool.and_eq_true]
        simp only [decide_eq_true_eq]
        rw [hh, hl, hdata] at *
        simp only [List.head?_cons, hdata, hL]
        constructor
        · rintro (⟨h1, h2⟩ | h3)
          · refine ⟨by simp, Or.inl ⟨?_, ?_⟩⟩
            · simpa using h1
            · simpa using h2
          · exact ⟨by simp, Or.inr h3⟩
        · rintro ⟨_, ⟨h1, h2⟩ | h3⟩
          · exact Or.inl ⟨by simpa using h1, by simpa using h2⟩
          · exact Or.inr h3
  · intro acc e
    unfold entryHashData
    exact foldl_if_filter _ _ _ _
  · intro acc es
    unfold entriesHashData
    exact foldl_if_filter _ _ _ _

/-- C9: When a bound store returns null for an uncached key,
`selectCache` stores the null as the key's slot and returns a fresh empty
`Entries` distinct from the slot; the slot counts toward `cacheSize`,
`empty` is unchanged (still true on an all-null cache), and the next
`selectCache` of the key takes the exclusive tombstone-reload branch, not
the first-miss branch. -/
theorem select_null_store_tombstone
    (st : TableState) (k : String) (f : String → Except Unit (Option Entries))
    (habs : st.cache.find? k = none)
    (hrem : st.remote = some f)
    (hnull : f k = Except.ok none) :
    selectCache st k true
      = Except.ok (⟨[], false⟩, { st with cache := st.cache.insertKeep k none }, SelectPath.missFetch)
    ∧ Cache.find? (st.cache.insertKeep k none) k = some none
    ∧ cacheSize { st with cache := st.cache.insertKeep k none } = cacheSize st + 1
    ∧ tableEmpty { st with cache := st.cache.insertKeep k none } = tableEmpty st
    ∧ selectCache { st with cache := st.cache.insertKeep k none } k true
        = Except.ok (⟨[], false⟩, { st with cache := (st.cache.insertKeep k none).setKey k none }, SelectPath.tombFetch) := by
  have hfind : Cache.find? (st.cache.insertKeep k none) k = some none :=
    find?_insertKeep_absent _ _ _ habs
  refine ⟨?_, hfind, ?_, ?_, ?_⟩
  · unfold selectCache selectCacheRaw
    rw [habs, hrem]
    simp only [hnull]
    rfl
  · unfold cacheSize
    exact insertKeep_length_absent _ _ _ habs
  · unfold tableEmpty
    unfold Cache.insertKeep
    rw [habs]
    simp [List.all_append]
  · unfold selectCache selectCacheRaw
    simp only [hfind, hrem]
    simp only [hnull]
    rfl

/-- Witness for C9: an empty cache and a store answering null. -/
theorem select_null_store_tombstone_witness :
    selectCache ⟨[], some (fun _ => Except.ok none), ⟨"t", [], []⟩, false⟩ "k" true
      = Except.ok (⟨[], false⟩, { (⟨[], some (fun _ => Except.ok none), ⟨"t", [], []⟩, false⟩ : TableState) with cache := Cache.insertKeep [] "k" none }, SelectPath.missFetch)
    ∧ Cache.find? (Cache.insertKeep [] "k" none) "k" = some none
    ∧ cacheSize { (⟨[], some (fun _ => Except.ok none), ⟨"t", [], []⟩, false⟩ : TableState) with cache := Cache.insertKeep [] "k" none }
        = cacheSize ⟨[], some (fun _ => Except.ok none), ⟨"t", [], []⟩, false⟩ + 1
    ∧ tableEmpty { (⟨[], some (fun _ => Except.ok none), ⟨"t", [], []⟩, false⟩ : TableState) with cache := Cache.insertKeep [] "k" none }
        = tableEmpty ⟨[], some (fun _ => Except.ok none), ⟨"t", [], []⟩, false⟩
    ∧ selectCache { (⟨[], some (fun _ => Except.ok none), ⟨"t", [], []⟩, false⟩ : TableState) with cache := Cache.insertKeep [] "k" none } "k" true
        = Except.ok (⟨[], false⟩, { (⟨[], some (fun _ => Except.ok none), ⟨"t", [], []⟩, false⟩ : TableState) with cache := (Cache.insertKeep [] "k" none).setKey "k" none }, SelectPath.tombFetch) :=
  select_null_store_tombstone ⟨[], some (fun _ => Except.ok none), ⟨"t", [], []⟩, false⟩
    "k" (fun _ => Except.ok none) rfl rfl rfl

theorem rollbackUpdateEntries_status (recs : List ChangeRecord)
    (es : List Entry) (i : Nat) :
    ((rollbackUpdateEntries recs es).getD i default).status
      = (es.getD i default).status := by
  induction recs generalizing es with
  | nil => rfl
  | cons r t ih =>
      rw [rollbackUpdateEntries_cons, ih]
      by_cases hr : r.index = i
      · subst hr
        by_cases hlt : r.index < es.length
        · rw [getD_set_self _ _ _ _ hlt, status_setField]
        · rw [set_length_le _ _ _ (by omega)]
      · rw [getD_set_ne _ _ _ _ _ hr]

theorem rollbackUpdateEntries_getField (recs : List ChangeRecord)
    (es : List Entry) (i : Nat) (n : String)
    (h : ∀ r ∈ recs, r.index = i → r.key ≠ n) :
    ((rollbackUpdateEntries recs es).getD i default).getField n
      = ((es.getD i default)).getField n := by
  induction recs generalizing es with
  | nil => rfl
  | cons r t ih =>
      rw [rollbackUpdateEntries_cons,
        ih _ (fun x hx => h x (List.mem_cons_of_mem r hx))]
      by_cases hr : r.index = i
      · have hk : r.key ≠ n := h r (List.mem_cons_self r t) hr
        subst hr
        by_cases hlt : r.index < es.length
        · rw [getD_set_self _ _ _ _ hlt]
          exact getField_setField_ne _ _ _ _ (Ne.symm hk)
        · rw [set_length_le _ _ _ (by omega)]
      · rw [getD_set_ne _ _ _ _ _ hr]

theorem rollbackRemoveEntries_length (recs : List ChangeRecord)
    (es : List Entry) : (rollbackRemoveEntries recs es).length = es.length := by
  induction recs generalizing es with
  | nil => rfl
  | cons r t ih => rw [rollbackRemoveEntries_cons, ih, List.length_set]

theorem rollbackRemoveEntries_getD_not_idx (recs : List ChangeRecord)
    (es : List Entry) (j : Nat) (h : ∀ r ∈ recs, r.index ≠ j) :
    (rollbackRemoveEntries recs es).getD j default = es.getD j default := by
  induction recs generalizing es with
  | nil => rfl
  | cons r t ih =>
      have hr : r.index ≠ j := h r (List.mem_cons_self r t)
      rw [rollbackRemoveEntries_cons,
        ih _ (fun x hx => h x (List.mem_cons_of_mem r hx)),
        getD_set_ne _ _ _ _ _ hr]

theorem rollbackRemoveEntries_fields (recs : List ChangeRecord)
    (es : List Entry) (i : Nat) :
    ((rollbackRemoveEntries recs es).getD i default).fields
      = (es.getD i default).fields := by
  induction recs generalizing es with
  | nil => rfl
  | cons r t ih =>
      rw [rollbackRemoveEntries_cons, ih]
      by_cases hr : r.index = i
      · subst hr
        by_cases hlt : r.index < es.length
        · rw [getD_set_self _ _ _ _ hlt, fields_setStatus]
        · rw [set_length_le _ _ _ (by omega)]
      · rw [getD_set_ne _ _ _ _ _ hr]

/-- C10: Rollback frame: for a `Change` of kind `Update` or `Remove`
whose key holds a non-null `Entries` and whose record indices are in
range, rollback only restores the recorded field values (Update) or
statuses (Remove) of the indexed entries: it adds no cache key, removes
none, sets no slot to null, leaves every other slot untouched and keeps
the entry count under the key unchanged. -/
theorem rollback_update_remove_frame
    (st : TableState) (k : String) (recs : List ChangeRecord) (es : Entries)
    (hslot : st.cache.find? k = some (some es))
    (hidx : ∀ r ∈ recs, r.index < es.size) :
    (∃ esU, rollback st ⟨ChangeKind.Update, k, recs⟩
        = some { st with cache := st.cache.setKey k (some esU) }
      ∧ esU.entries.length = es.entries.length
      ∧ (∀ k', k' ≠ k → Cache.find? (st.cache.setKey k (some esU)) k' = st.cache.find? k')
      ∧ Cache.find? (st.cache.setKey k (some esU)) k = some (some esU)
      ∧ (st.cache.setKey k (some esU)).length = st.cache.length
      ∧ (∀ i, i ∉ recs.map (fun r => r.index) →
            esU.entries.getD i default = es.entries.getD i default)
      ∧ (∀ i, (esU.entries.getD i default).status = (es.entries.getD i default).status)
      ∧ (∀ i n, (∀ r ∈ recs, r.index = i → r.key ≠ n) →
            (esU.entries.getD i default).getField n = (es.entries.getD i default).getField n))
    ∧ (∃ esR, rollback st ⟨ChangeKind.Remove, k, recs⟩
        = some { st with cache := st.cache.setKey k (some esR) }
      ∧ esR.entries.length = es.entries.length
      ∧ (∀ k', k' ≠ k → Cache.find? (st.cache.setKey k (some esR)) k' = st.cache.find? k')
      ∧ Cache.find? (st.cache.setKey k (some esR)) k = some (some esR)
      ∧ (st.cache.setKey k (some esR)).length = st.cache.length
      ∧ (∀ i, i ∉ recs.map (fun r => r.index) →
            esR.entries.getD i default = es.entries.getD i default)
      ∧ (∀ i, (esR.entries.getD i default).fields = (es.entries.getD i default).fields)) := by
  have hall : (recs.all (fun r => decide (r.index < es.size))) = true := by
    rw [List.all_eq_true]
    intro r hr
    rw [decide_eq_true_eq]
    exact hidx r hr
  constructor
  · refine ⟨{ es with entries := rollbackUpdateEntries recs es.entries }, ?_, ?_, ?_, ?_, ?_, ?_, ?_, ?_⟩
    · unfold rollback
      simp only [hslot]
      rw [if_pos hall]
    · exact rollbackUpdateEntries_length _ _
    · intro k' hk
      exact find?_setKey_ne _ _ _ _ hk
    · exact find?_setKey_self _ _ _
    · exact setKey_length _ _ _ _ hslot
    · intro i hi
      apply rollbackUpdateEntries_getD_not_idx
      intro r hr hc
      exact hi (List.mem_map.mpr ⟨r, hr, hc⟩)
    · intro i
      exact rollbackUpdateEntries_status _ _ _
    · intro i n hobs
      exact rollbackUpdateEntries_getField _ _ _ _ hobs
  · refine ⟨{ es with entries := rollbackRemoveEntries recs es.entries }, ?_, ?_, ?_, ?_, ?_, ?_, ?_⟩
    · unfold rollback
      simp only [hslot]
      rw [if_pos hall]
    · exact rollbackRemoveEntries_length _ _
    · intro k' hk
      exact find?_setKey_ne _ _ _ _ hk
    · exact find?_setKey_self _ _ _
    · exact setKey_length _ _ _ _ hslot
    · intro i hi
      apply rollbackRemoveEntries_getD_not_idx
      intro r hr hc
      exact hi (List.mem_map.mpr ⟨r, hr, hc⟩)
    · intro i
      exact rollbackRemoveEntries_fields _ _ _

/-- Witness for C10 on a one-key cache with a single record. -/
theorem rollback_update_remove_frame_witness :
    (∀ r ∈ [(⟨0, "f", "old"⟩ : ChangeRecord)],
        r.index < (Entries.mk [Entry.mk [("f", "x")] 1 true] true).size) ∧
    ((∃ esU, rollback ⟨[("k", some (Entries.mk [Entry.mk [("f", "x")] 1 true] true))], none, ⟨"t", ["f"], []⟩, false⟩ ⟨ChangeKind.Update, "k", [⟨0, "f", "old"⟩]⟩
        = some { (⟨[("k", some (Entries.mk [Entry.mk [("f", "x")] 1 true] true))], none, ⟨"t", ["f"], []⟩, false⟩ : TableState) with cache := Cache.setKey [("k", some (Entries.mk [Entry.mk [("f", "x")] 1 true] true))] "k" (some esU) }
      ∧ esU.entries.length = (Entries.mk [Entry.mk [("f", "x")] 1 true] true).entries.length
      ∧ (∀ k', k' ≠ "k" → Cache.find? (Cache.setKey [("k", some (Entries.mk [Entry.mk [("f", "x")] 1 true] true))] "k" (some esU)) k' = Cache.find? [("k", some (Entries.mk [Entry.mk [("f", "x")] 1 true] true))] k')
      ∧ Cache.find? (Cache.setKey [("k", some (Entries.mk [Entry.mk [("f", "x")] 1 true] true))] "k" (some esU)) "k" = some (some esU)
      ∧ (Cache.setKey [("k", some (Entries.mk [Entry.mk [("f", "x")] 1 true] true))] "k" (some esU)).length = [("k", some (Entries.mk [Entry.mk [("f", "x")] 1 true] true))].length
      ∧ (∀ i, i ∉ [(⟨0, "f", "old"⟩ : ChangeRecord)].map (fun r => r.index) →
            esU.entries.getD i default = (Entries.mk [Entry.mk [("f", "x")] 1 true] true).entries.getD i default)
      ∧ (∀ i, (esU.entries.getD i default).status = ((Entries.mk [Entry.mk [("f", "x")] 1 true] true).entries.getD i default).status)
      ∧ (∀ i n, (∀ r ∈ [(⟨0, "f", "old"⟩ : ChangeRecord)], r.index = i → r.key ≠ n) →
            (esU.entries.getD i default).getField n = ((Entries.mk [Entry.mk [("f", "x")] 1 true] true).entries.getD i default).getField n))
    ∧ (∃ esR, rollback ⟨[("k", some (Entries.mk [Entry.mk [("f", "x")] 1 true] true))], none, ⟨"t", ["f"], []⟩, false⟩ ⟨ChangeKind.Remove, "k", [⟨0, "f", "old"⟩]⟩
        = some { (⟨[("k", some (Entries.mk [Entry.mk [("f", "x")] 1 true] true))], none, ⟨"t", ["f"], []⟩, false⟩ : TableState) with cache := Cache.setKey [("k", some (Entries.mk [Entry.mk [("f", "x")] 1 true] true))] "k" (some esR) }
      ∧ esR.entries.length = (Entries.mk [Entry.mk [("f", "x")] 1 true] true).entries.length
      ∧ (∀ k', k' ≠ "k" → Cache.find? (Cache.setKey [("k", some (Entries.mk [Entry.mk [("f", "x")] 1 true] true))] "k" (some esR)) k' = Cache.find? [("k", some (Entries.mk [Entry.mk [("f", "x")] 1 true] true))] k')
      ∧ Cache.find? (Cache.setKey [("k", some (Entries.mk [Entry.mk [("f", "x")] 1 true] true))] "k" (some esR)) "k" = some (some esR)
      ∧ (Cache.setKey [("k", some (Entries.mk [Entry.mk [("f", "x")] 1 true] true))] "k" (some esR)).length = [("k", some (Entries.mk [Entry.mk [("f", "x")] 1 true] true))].length
      ∧ (∀ i, i ∉ [(⟨0, "f", "old"⟩ : ChangeRecord)].map (fun r => r.index) →
            esR.entries.getD i default = (Entries.mk [Entry.mk [("f", "x")] 1 true] true).entries.getD i default)
      ∧ (∀ i, (esR.entries.getD i default).fields = ((Entries.mk [Entry.mk [("f", "x")] 1 true] true).entries.getD i default).fields))) :=
  ⟨by decide,
    rollback_update_remove_frame
      ⟨[("k", some (Entries.mk [Entry.mk [("f", "x")] 1 true] true))], none, ⟨"t", ["f"], []⟩, false⟩
      "k" [⟨0, "f", "old"⟩] (Entries.mk [Entry.mk [("f", "x")] 1 true] true)
      rfl (by decide)⟩

/-- `insert` when the resolved pointer is non-null (aliased to the slot):
the appended-to `Entries` lands in the slot via the alias write-back and
the later cache insert is a no-op. -/
theorem insertOp_aliased
    (st st1 : TableState) (k : String) (e : Entry) (opts : AccessOptions)
    (es : Entries) (p : SelectPath)
    (hauth : opts.check = false ∨ checkAuthority st.info opts.origin = true)
    (hsel : selectCacheRaw st k true = Except.ok (some es, st1, p))
    (hcf : checkField st1.info e = Except.ok ())
    (hrec : st1.recorder = true) :
    insertOp st k e opts true
      = (1, { st1 with cache := st1.cache.setKey k (some (es.addEntry e)) },
         [⟨ChangeKind.Insert, k, [⟨es.size, "", ""⟩]⟩]) := by
  have hguard : (opts.check && !checkAuthority st.info opts.origin) = false := by
    rcases hauth with h | h <;> simp [h]
  unfold insertOp insertCore
  rw [hguard]
  simp only [Bool.false_eq_true, if_false, hsel]
  rw [hcf]
  simp only [hrec, if_true, freshIfNone, Option.getD_some]
  by_cases hez : es.size = 0
  · rw [if_pos hez]
    rw [insertKeep_present _ _ _ _ (find?_setKey_self _ _ _)]
  · rw [if_neg hez]

/-- `insert` when the resolved pointer is null and the key is absent from
the cache after resolution: the fresh `Entries` holding only the new
entry is installed by the first-inserter-wins cache insert. -/
theorem insertOp_fresh_absent
    (st st1 : TableState) (k : String) (e : Entry) (opts : AccessOptions)
    (p : SelectPath)
    (hauth : opts.check = false ∨ checkAuthority st.info opts.origin = true)
    (hsel : selectCacheRaw st k true = Except.ok (none, st1, p))
    (hcf : checkField st1.info e = Except.ok ())
    (hrec : st1.recorder = true) :
    insertOp st k e opts true
      = (1, { st1 with cache := st1.cache.insertKeep k (some ⟨[e], true⟩) },
         [⟨ChangeKind.Insert, k, [⟨0, "", ""⟩]⟩]) := by
  have hguard : (opts.check && !checkAuthority st.info opts.origin) = false := by
    rcases hauth with h | h <;> simp [h]
  unfold insertOp insertCore
  rw [hguard]
  simp only [Bool.false_eq_true, if_false, hsel]
  rw [hcf]
  simp only [hrec, if_true, freshIfNone, Option.getD_none]
  rfl

/-- `rollback` of an `Insert` whose record indexes the appended last
entry: the entry is removed, and the slot becomes the null tombstone
exactly when nothing remains. -/
theorem rollback_insert_last
    (st : TableState) (k : String) (l : List Entry) (e : Entry) (d : Bool)
    (r : ChangeRecord) (rest : List ChangeRecord)
    (hslot : st.cache.find? k = some (some ⟨l ++ [e], d⟩))
    (hidx : r.index = l.length) :
    (l = [] → rollback st ⟨ChangeKind.Insert, k, r :: rest⟩
        = some { st with cache := st.cache.setKey k none })
    ∧ (l ≠ [] → rollback st ⟨ChangeKind.Insert, k, r :: rest⟩
        = some { st with cache := st.cache.setKey k (some ⟨l, d⟩) }) := by
  have hrem : (Entries.mk (l ++ [e]) d).removeEntry r.index = ⟨l, d⟩ := by
    unfold Entries.removeEntry
    rw [hidx, eraseIdx_append_length]
  constructor
  · intro hl
    subst hl
    unfold rollback
    simp only [hslot, hrem]
    rfl
  · intro hl
    unfold rollback
    simp only [hslot, hrem]
    rw [if_neg (by simpa [Entries.size, List.length_eq_zero] using hl)]

/-- Insert-then-rollback when the resolved pointer aliases the slot. -/
theorem insert_rollback_from_aliased
    (st st1 : TableState) (k : String) (e : Entry) (opts : AccessOptions)
    (es0 : Entries) (p : SelectPath)
    (hauth : opts.check = false ∨ checkAuthority st.info opts.origin = true)
    (hsel : selectCacheRaw st k true = Except.ok (some es0, st1, p))
    (hcf : checkField st1.info e = Except.ok ())
    (hrec : st1.recorder = true) :
    ∃ st2 r es1 st3,
      insertOp st k e opts true = (1, st2, [⟨ChangeKind.Insert, k, [r]⟩])
      ∧ st2.cache.find? k = some (some es1)
      ∧ es1.size = r.index + 1
      ∧ rollback st2 ⟨ChangeKind.Insert, k, [r]⟩ = some st3
      ∧ (es1.size = 1 → st3.cache.find? k = some none)
      ∧ (1 < es1.size → ∃ es2, st3.cache.find? k = some (some es2)
            ∧ es2.size = es1.size - 1) := by
  have hins := insertOp_aliased st st1 k e opts es0 p hauth hsel hcf hrec
  have hfind2 : Cache.find? (st1.cache.setKey k (some (es0.addEntry e))) k
      = some (some (es0.addEntry e)) := find?_setKey_self _ _ _
  have hrl := rollback_insert_last
    { st1 with cache := st1.cache.setKey k (some (es0.addEntry e)) }
    k es0.entries e true ⟨es0.size, "", ""⟩ [] hfind2 rfl
  have hsz : (es0.addEntry e).size = es0.size + 1 := by
    simp [Entries.addEntry, Entries.size]
  by_cases hl : es0.entries = []
  · refine ⟨_, ⟨es0.size, "", ""⟩, es0.addEntry e, _, hins, hfind2, hsz, hrl.1 hl, ?_, ?_⟩
    · intro _
      exact find?_setKey_self _ _ _
    · intro hgt
      rw [hsz] at hgt
      have : es0.size = 0 := by simp [Entries.size, List.length_eq_zero, hl]
      omega
  · refine ⟨_, ⟨es0.size, "", ""⟩, es0.addEntry e, _, hins, hfind2, hsz, hrl.2 hl, ?_, ?_⟩
    · intro h1
      rw [hsz] at h1
      have : es0.size ≠ 0 := by simpa [Entries.size, List.length_eq_zero] using hl
      omega
    · intro _
      refine ⟨⟨es0.entries, true⟩, find?_setKey_self _ _ _, ?_⟩
      rw [hsz]
      simp [Entries.size]

/-- Insert-then-rollback when the key is absent and the store yielded no
entries: the fresh singleton is installed, and rollback tombstones it. -/
theorem insert_rollback_from_fresh
    (st st1 : TableState) (k : String) (e : Entry) (opts : AccessOptions)
    (p : SelectPath)
    (hauth : opts.check = false ∨ checkAuthority st.info opts.origin = true)
    (hsel : selectCacheRaw st k true = Except.ok (none, st1, p))
    (habs : st1.cache.find? k = none)
    (hcf : checkField st1.info e = Except.ok ())
    (hrec : st1.recorder = true) :
    ∃ st2 r es1 st3,
      insertOp st k e opts true = (1, st2, [⟨ChangeKind.Insert, k, [r]⟩])
      ∧ st2.cache.find? k = some (some es1)
      ∧ es1.size = r.index + 1
      ∧ rollback st2 ⟨ChangeKind.Insert, k, [r]⟩ = some st3
      ∧ (es1.size = 1 → st3.cache.find? k = some none)
      ∧ (1 < es1.size → ∃ es2, st3.cache.find? k = some (some es2)
            ∧ es2.size = es1.size - 1) := by
  have hins := insertOp_fresh_absent st st1 k e opts p hauth hsel hcf hrec
  have hfind2 : Cache.find? (st1.cache.insertKeep k (some ⟨[e], true⟩)) k
      = some (some (⟨[e], true⟩ : Entries)) := find?_insertKeep_absent _ _ _ habs
  have hrl := rollback_insert_last
    { st1 with cache := st1.cache.insertKeep k (some ⟨[e], true⟩) }
    k [] e true ⟨0, "", ""⟩ [] hfind2 rfl
  refine ⟨_, ⟨0, "", ""⟩, ⟨[e], true⟩, _, hins, hfind2, rfl, hrl.1 rfl, ?_, ?_⟩
  · intro _
    exact find?_setKey_self _ _ _
  · intro hgt
    simp [Entries.size] at hgt

theorem foldl_addEntry_range_take (l : List Entry) (n : Nat) (acc : Entries)
    (hn : n ≤ l.length) :
    ((List.range n).foldl (fun acc i => acc.addEntry (l.getD i default)) acc).entries
      = acc.entries ++ l.take n := by
  induction n generalizing acc with
  | zero => simp
  | succ m ih =>
      rw [List.range_succ, List.foldl_append]
      simp only [List.foldl_cons, List.foldl_nil]
      show (((List.range m).foldl (fun acc i => acc.addEntry (l.getD i default)) acc).addEntry
        (l.getD m default)).entries = _
      rw [show ∀ es x, (Entries.addEntry es x).entries = es.entries ++ [x] from fun _ _ => rfl]
      rw [ih _ (by omega)]
      rw [List.append_assoc]
      congr 1
      rw [List.take_succ]
      congr 1
      have hm : m < l.length := by omega
      rw [List.getElem?_eq_getElem hm]
      simp [List.getD_eq_getElem?_getD, List.getElem?_eq_getElem hm]

theorem select_all_entries (st : TableState) (k : String) (es : Entries)
    (hslot : st.cache.find? k = some (some es)) :
    (selectOp st k []).1.entries = es.entries ∧ (selectOp st k []).2 = st := by
  have hsel : selectCacheRaw st k true = Except.ok (some es, st, SelectPath.hit) := by
    unfold selectCacheRaw
    rw [hslot]
  unfold selectOp
  rw [hsel]
  simp only [freshIfNone, Option.getD_some]
  constructor
  · show ((processEntries es []).foldl
        (fun (acc : Entries) (i : Nat) => acc.addEntry (es.entries.getD i default))
        ⟨[], false⟩).entries = es.entries
    rw [show processEntries es [] = List.range es.size from rfl]
    rw [foldl_addEntry_range_take es.entries es.size ⟨[], false⟩ (le_refl _)]
    simp [Entries.size]
  · trivial

/-- C2 (amended): Insert is reversible provided the cache slot for the
key after the insert is the non-null `Entries` the insert appended to
(the key was absent with no null fetched, the slot already held entries,
or a tombstone/absent slot was reloaded from the store as non-null).
Then rollback of the emitted `Change{Insert, key, [{index}]}` makes the
slot the null tombstone when the inserted entry was the only one, and
otherwise leaves exactly one entry fewer than after the insert.  When the
slot holds null after the insert, rollback instead faults on the null
pointer (the counterexample). -/
theorem insert_rollback_reverses_count
    (st : TableState) (k : String) (e : Entry) (opts : AccessOptions)
    (hauth : opts.check = false ∨ checkAuthority st.info opts.origin = true)
    (hcf : checkField st.info e = Except.ok ())
    (hrec : st.recorder = true)
    (hgood : (st.cache.find? k = none ∧ (st.remote = none
          ∨ ∃ f es0, st.remote = some f ∧ f k = Except.ok (some es0)))
      ∨ (∃ es0, st.cache.find? k = some (some es0))
      ∨ (st.cache.find? k = some none
          ∧ ∃ f es0, st.remote = some f ∧ f k = Except.ok (some es0))) :
    ∃ st2 r es1 st3,
      insertOp st k e opts true = (1, st2, [⟨ChangeKind.Insert, k, [r]⟩])
      ∧ st2.cache.find? k = some (some es1)
      ∧ es1.size = r.index + 1
      ∧ rollback st2 ⟨ChangeKind.Insert, k, [r]⟩ = some st3
      ∧ (es1.size = 1 → st3.cache.find? k = some none)
      ∧ (1 < es1.size → ∃ es2, st3.cache.find? k = some (some es2)
            ∧ es2.size = es1.size - 1) := by
  rcases hgood with ⟨habs, hrem | ⟨f, es0, hremf, hfk⟩⟩ | ⟨es0, hslot⟩ |
    ⟨htomb, f, es0, hremf, hfk⟩
  · have hsel : selectCacheRaw st k true
        = Except.ok (none, st, SelectPath.missSkip) := by
      unfold selectCacheRaw
      rw [habs, hrem]
    exact insert_rollback_from_fresh st st k e opts _ hauth hsel habs hcf hrec
  · have hsel : selectCacheRaw st k true
        = Except.ok (some es0, { st with cache := st.cache.insertKeep k (some es0) }, SelectPath.missFetch) := by
      unfold selectCacheRaw
      rw [habs, hremf]
      simp only [hfk]
    exact insert_rollback_from_aliased st _ k e opts es0 _ hauth hsel hcf hrec
  · have hsel : selectCacheRaw st k true
        = Except.ok (some es0, st, SelectPath.hit) := by
      unfold selectCacheRaw
      rw [hslot]
    exact insert_rollback_from_aliased st st k e opts es0 _ hauth hsel hcf hrec
  · have hsel : selectCacheRaw st k true
        = Except.ok (some es0, { st with cache := st.cache.setKey k (some es0) }, SelectPath.tombFetch) := by
      unfold selectCacheRaw
      rw [htomb, hremf]
      simp only [hfk]
    exact insert_rollback_from_aliased st _ k e opts es0 _ hauth hsel hcf hrec

/-- Counterexample to C2 as stated: on a tombstoned key with no bound
store, insert succeeds (returns 1, emits the record) but the appended
entries never reach the cache, and rollback dereferences the null slot
(modelled as `none`). -/
theorem insert_rollback_null_slot_cex :
    insertOp ⟨[("k", none)], none, ⟨"t", ["f"], []⟩, true⟩ "k"
        ⟨[("f", "v")], 0, false⟩ ⟨"", false⟩ true
      = (1, ⟨[("k", none)], none, ⟨"t", ["f"], []⟩, true⟩,
         [⟨ChangeKind.Insert, "k", [⟨0, "", ""⟩]⟩])
    ∧ rollback ⟨[("k", none)], none, ⟨"t", ["f"], []⟩, true⟩
        ⟨ChangeKind.Insert, "k", [⟨0, "", ""⟩]⟩ = none := by
  exact ⟨rfl, rfl⟩

theorem insert_presence_from_aliased
    (st st1 : TableState) (k : String) (e : Entry) (opts : AccessOptions)
    (es0 : Entries) (p : SelectPath)
    (hauth : opts.check = false ∨ checkAuthority st.info opts.origin = true)
    (hsel : selectCacheRaw st k true = Except.ok (some es0, st1, p))
    (hcf : checkField st1.info e = Except.ok ())
    (hrec : st1.recorder = true) :
    ∃ st2,
      insertOp st k e opts true
        = (1, st2, [⟨ChangeKind.Insert, k, [⟨es0.size, "", ""⟩]⟩])
      ∧ st2.cache.find? k = some (some (es0.addEntry e))
      ∧ (es0.addEntry e).entries = es0.entries ++ [e]
      ∧ (selectOp st2 k []).1.entries = es0.entries ++ [e] := by
  have hins := insertOp_aliased st st1 k e opts es0 p hauth hsel hcf hrec
  have hfind2 : Cache.find? (st1.cache.setKey k (some (es0.addEntry e))) k
      = some (some (es0.addEntry e)) := find?_setKey_self _ _ _
  have hread := select_all_entries
    { st1 with cache := st1.cache.setKey k (some (es0.addEntry e)) } k
    (es0.addEntry e) hfind2
  exact ⟨_, hins, hfind2, rfl, hread.1⟩

theorem insert_presence_from_fresh
    (st st1 : TableState) (k : String) (e : Entry) (opts : AccessOptions)
    (p : SelectPath)
    (hauth : opts.check = false ∨ checkAuthority st.info opts.origin = true)
    (hsel : selectCacheRaw st k true = Except.ok (none, st1, p))
    (habs : st1.cache.find? k = none)
    (hcf : checkField st1.info e = Except.ok ())
    (hrec : st1.recorder = true) :
    ∃ st2,
      insertOp st k e opts true
        = (1, st2, [⟨ChangeKind.Insert, k, [⟨(Entries.mk [] false).size, "", ""⟩]⟩])
      ∧ st2.cache.find? k = some (some ((Entries.mk [] false).addEntry e))
      ∧ ((Entries.mk [] false).addEntry e).entries = (Entries.mk [] false).entries ++ [e]
      ∧ (selectOp st2 k []).1.entries = (Entries.mk [] false).entries ++ [e] := by
  have hins := insertOp_fresh_absent st st1 k e opts p hauth hsel hcf hrec
  have hfind2 : Cache.find? (st1.cache.insertKeep k (some ⟨[e], true⟩)) k
      = some (some (⟨[e], true⟩ : Entries)) := find?_insertKeep_absent _ _ _ habs
  have hread := select_all_entries
    { st1 with cache := st1.cache.insertKeep k (some ⟨[e], true⟩) } k
    ⟨[e], true⟩ hfind2
  exact ⟨_, hins, hfind2, rfl, hread.1⟩

/-- C5 (amended): Insert cache presence: under the same proviso as C2 —
the resolved `Entries` aliases a cache slot or the key is absent and no
null was fetched — insert appends the entry and `(key, that Entries)` is
present in the cache afterwards, so the inserted entry is visible to a
subsequent read of the key; when the resolved `Entries` is non-empty it
only appends.  When the slot holds null the existing null slot wins and
the appended entry is not installed (the counterexample). -/
theorem insert_cache_presence
    (st : TableState) (k : String) (e : Entry) (opts : AccessOptions)
    (hauth : opts.check = false ∨ checkAuthority st.info opts.origin = true)
    (hcf : checkField st.info e = Except.ok ())
    (hrec : st.recorder = true)
    (hgood : (st.cache.find? k = none ∧ (st.remote = none
          ∨ ∃ f es0, st.remote = some f ∧ f k = Except.ok (some es0)))
      ∨ (∃ es0, st.cache.find? k = some (some es0))
      ∨ (st.cache.find? k = some none
          ∧ ∃ f es0, st.remote = some f ∧ f k = Except.ok (some es0))) :
    ∃ (st2 : TableState) (es0 : Entries),
      insertOp st k e opts true
        = (1, st2, [⟨ChangeKind.Insert, k, [⟨es0.size, "", ""⟩]⟩])
      ∧ st2.cache.find? k = some (some (es0.addEntry e))
      ∧ (es0.addEntry e).entries = es0.entries ++ [e]
      ∧ (selectOp st2 k []).1.entries = es0.entries ++ [e] := by
  rcases hgood with ⟨habs, hrem | ⟨f, es0, hremf, hfk⟩⟩ | ⟨es0, hslot⟩ |
    ⟨htomb, f, es0, hremf, hfk⟩
  · have hsel : selectCacheRaw st k true
        = Except.ok (none, st, SelectPath.missSkip) := by
      unfold selectCacheRaw
      rw [habs, hrem]
    obtain ⟨st2, h⟩ := insert_presence_from_fresh st st k e opts _ hauth hsel habs hcf hrec
    exact ⟨st2, ⟨[], false⟩, h⟩
  · have hsel : selectCacheRaw st k true
        = Except.ok (some es0, { st with cache := st.cache.insertKeep k (some es0) }, SelectPath.missFetch) := by
      unfold selectCacheRaw
      rw [habs, hremf]
      simp only [hfk]
    obtain ⟨st2, h⟩ := insert_presence_from_aliased st _ k e opts es0 _ hauth hsel hcf hrec
    exact ⟨st2, es0, h⟩
  · have hsel : selectCacheRaw st k true
        = Except.ok (some es0, st, SelectPath.hit) := by
      unfold selectCacheRaw
      rw [hslot]
    obtain ⟨st2, h⟩ := insert_presence_from_aliased st st k e opts es0 _ hauth hsel hcf hrec
    exact ⟨st2, es0, h⟩
  · have hsel : selectCacheRaw st k true
        = Except.ok (some es0, { st with cache := st.cache.setKey k (some es0) }, SelectPath.tombFetch) := by
      unfold selectCacheRaw
      rw [htomb, hremf]
      simp only [hfk]
    obtain ⟨st2, h⟩ := insert_presence_from_aliased st _ k e opts es0 _ hauth hsel hcf hrec
    exact ⟨st2, es0, h⟩

/-- Counterexample to C5 as stated: on a tombstoned key with no bound
store the resolved `Entries` has size 0, the entry is appended to it, yet
the slot still holds null and a subsequent select returns nothing. -/
theorem insert_presence_null_slot_cex :
    insertOp ⟨[("k", none)], none, ⟨"t", ["f"], []⟩, true⟩ "k"
        ⟨[("f", "v")], 0, false⟩ ⟨"", false⟩ true
      = (1, ⟨[("k", none)], none, ⟨"t", ["f"], []⟩, true⟩,
         [⟨ChangeKind.Insert, "k", [⟨0, "", ""⟩]⟩])
    ∧ Cache.find? [("k", none)] "k" = some none
    ∧ (selectOp ⟨[("k", none)], none, ⟨"t", ["f"], []⟩, true⟩ "k" []).1
        = ⟨[], false⟩ := by
  exact ⟨rfl, rfl, rfl⟩

/-- Witness for C2 (amended) at a fresh key with no bound store. -/
theorem insert_rollback_reverses_count_witness :
    ∃ (st2 : TableState) (r : ChangeRecord) (es1 : Entries) (st3 : TableState),
      insertOp ⟨[], none, ⟨"t", ["f"], []⟩, true⟩ "k" ⟨[("f", "v")], 0, false⟩
          ⟨"", false⟩ true
        = (1, st2, [⟨ChangeKind.Insert, "k", [r]⟩])
      ∧ st2.cache.find? "k" = some (some es1)
      ∧ es1.size = r.index + 1
      ∧ rollback st2 ⟨ChangeKind.Insert, "k", [r]⟩ = some st3
      ∧ (es1.size = 1 → st3.cache.find? "k" = some none)
      ∧ (1 < es1.size → ∃ es2, st3.cache.find? "k" = some (some es2)
            ∧ es2.size = es1.size - 1) :=
  insert_rollback_reverses_count ⟨[], none, ⟨"t", ["f"], []⟩, true⟩ "k"
    ⟨[("f", "v")], 0, false⟩ ⟨"", false⟩ (Or.inl rfl) rfl rfl
    (Or.inl ⟨rfl, Or.inl rfl⟩)

/-- Witness for C5 (amended) at a fresh key with no bound store. -/
theorem insert_cache_presence_witness :
    ∃ (st2 : TableState) (es0 : Entries),
      insertOp ⟨[], none, ⟨"t", ["f"], []⟩, true⟩ "k" ⟨[("f", "v")], 0, false⟩
          ⟨"", false⟩ true
        = (1, st2, [⟨ChangeKind.Insert, "k", [⟨es0.size, "", ""⟩]⟩])
      ∧ st2.cache.find? "k" = some (some (es0.addEntry ⟨[("f", "v")], 0, false⟩))
      ∧ (es0.addEntry ⟨[("f", "v")], 0, false⟩).entries = es0.entries ++ [⟨[("f", "v")], 0, false⟩]
      ∧ (selectOp st2 "k" []).1.entries = es0.entries ++ [⟨[("f", "v")], 0, false⟩] :=
  insert_cache_presence ⟨[], none, ⟨"t", ["f"], []⟩, true⟩ "k"
    ⟨[("f", "v")], 0, false⟩ ⟨"", false⟩ (Or.inl rfl) rfl rfl
    (Or.inl ⟨rfl, Or.inl rfl⟩)

/-- C4: Error propagation evaluated at a store that throws: `update`,
`insert` and `select` catch the failure inside the operation and return
their no-op values (0, 1, empty `Entries`) with the state at the throw
point, but `remove` — the one mutating operation written without a
try/catch — propagates the exception to the caller instead of returning
its no-op value 0. -/
theorem remove_propagates_store_exception :
    remove ⟨[], some (fun _ => Except.error ()), ⟨"t", ["f"], []⟩, true⟩ "k" []
        ⟨"", false⟩
      = Except.error ⟨[], some (fun _ => Except.error ()), ⟨"t", ["f"], []⟩, true⟩
    ∧ update ⟨[], some (fun _ => Except.error ()), ⟨"t", ["f"], []⟩, true⟩ "k"
        ⟨[("f", "v")], 0, false⟩ [] ⟨"", false⟩
      = (0, ⟨[], some (fun _ => Except.error ()), ⟨"t", ["f"], []⟩, true⟩, [])
    ∧ insertOp ⟨[], some (fun _ => Except.error ()), ⟨"t", ["f"], []⟩, true⟩ "k"
        ⟨[("f", "v")], 0, false⟩ ⟨"", false⟩ true
      = (1, ⟨[], some (fun _ => Except.error ()), ⟨"t", ["f"], []⟩, true⟩, [])
    ∧ selectOp ⟨[], some (fun _ => Except.error ()), ⟨"t", ["f"], []⟩, true⟩ "k" []
      = (⟨[], false⟩, ⟨[], some (fun _ => Except.error ()), ⟨"t", ["f"], []⟩, true⟩) :=
  ⟨rfl, rfl, rfl, rfl⟩
